import Mathlib

/-!
# Verification of the `cenDb` lookup table (`src/db/lookup.rs`)

Shallow embedding of the persistent key-to-location index: the fixed-width
little-endian codecs for map records (24 bytes) and WAL records (25 bytes),
the `LookupTable` state (in-memory map, in-memory wal mirror, and the byte
contents of `map.db` and `wal.db`), and the operations `new_reset` (open),
`add`, `remove`, `flush`, `get`.

Machine integers (`u64`, `u8`) are modelled as `Nat`; wrap-around is written
with explicit `% 2 ^ 64` where it matters.  File contents are `List Nat`
(each element a byte value).  The Rust `HashMap` is modelled as an
association list with unique keys; its unspecified iteration order is fixed
to list order, which is legitimate since the on-disk snapshot format is
order-independent.  `sync_all` is modelled by a shadow copy `wal_durable`
of the log bytes known to have reached durable storage, and fallible I/O in
`add` by an explicit outcome parameter.
-/

namespace CenDb

/-- `EntryLocation { block: u64, pointer: u64 }` from `lookup.rs`. -/
structure EntryLocation where
  block : Nat
  pointer : Nat
deriving DecidableEq, Repr

/-- `WalOperation` from `lookup.rs`: `Insert{key, location}` or `Remove{key}`. -/
inductive WalOperation where
  | Insert (key : Nat) (location : EntryLocation)
  | Remove (key : Nat)
deriving DecidableEq, Repr

/-- `const WAL_BLOCK_SIZE: usize = 25`. -/
def WAL_BLOCK_SIZE : Nat := 25

/-- `const MAP_BLOCK_SIZE: usize = 24`. -/
def MAP_BLOCK_SIZE : Nat := 24

/-- Model of Rust's `HashMap<u64, EntryLocation>`: an association list with
unique keys; iteration order is the list order. -/
abbrev Mapping := List (Nat × EntryLocation)

/-- `HashMap::insert`: upsert.  Any existing binding for `k` is dropped and
the new binding appended. -/
def mapInsert (m : Mapping) (k : Nat) (v : EntryLocation) : Mapping :=
  m.filter (fun p => p.1 != k) ++ [(k, v)]

/-- `HashMap::remove`: delete the binding for `k` if present. -/
def mapRemove (m : Mapping) (k : Nat) : Mapping :=
  m.filter (fun p => p.1 != k)

/-- `HashMap::get`: look up the binding for `k`. -/
def mapGet (m : Mapping) (k : Nat) : Option EntryLocation :=
  m.lookup k

/-- Little-endian byte encoding, `w` bytes wide (`u64::to_le_bytes` is `w = 8`). -/
def toLEBytes (w n : Nat) : List Nat :=
  match w with
  | 0 => []
  | w' + 1 => n % 256 :: toLEBytes w' (n / 256)

/-- Little-endian byte decoding (`u64::from_le_bytes` on an 8-byte slice). -/
def fromLEBytes (l : List Nat) : Nat :=
  match l with
  | [] => 0
  | b :: rest => b + 256 * fromLEBytes rest

/-- `u64::to_le_bytes`. -/
def u64ToLE (n : Nat) : List Nat := toLEBytes 8 n

/-- Fuel-indexed worker for `chunksExact`; `l.length` is always enough fuel. -/
def chunksExactAux (fuel n : Nat) (l : List α) : List (List α) :=
  match fuel with
  | 0 => []
  | fuel' + 1 =>
    if 0 < n ∧ n ≤ l.length then
      l.take n :: chunksExactAux fuel' n (l.drop n)
    else []

/-- `slice::chunks_exact(n)`: the maximal list of disjoint consecutive
`n`-element chunks; a shorter trailing remainder is not produced. -/
def chunksExact (n : Nat) (l : List α) : List (List α) :=
  chunksExactAux l.length n l

/-- `chunk[a..a+8].try_into()` followed by `u64::from_le_bytes`: fails
(as `TryFromSliceError`) exactly when the slice does not have 8 elements. -/
def u64FromSlice (chunk : List Nat) (a : Nat) : Option Nat :=
  let s := (chunk.drop a).take 8
  if s.length = 8 then some (fromLEBytes s) else none

/-- Body of the decode loop of `get_map_from_file` for one 24-byte chunk:
`key = chunk[0..8]`, `block = chunk[8..16]`, `pointer = chunk[16..24]`,
then `hashmap.insert(key, EntryLocation { block, pointer })`. -/
def decodeMapChunk (m : Mapping) (chunk : List Nat) : Option Mapping := do
  let key ← u64FromSlice chunk 0
  let block ← u64FromSlice chunk 8
  let pointer ← u64FromSlice chunk 16
  pure (mapInsert m key ⟨block, pointer⟩)

/-- `LookupTable::get_map_from_file`: split the file content into exact
24-byte chunks (dropping any shorter tail) and insert each decoded record
into the map. -/
def get_map_from_file (buffer : List Nat) : Option Mapping :=
  (chunksExact MAP_BLOCK_SIZE buffer).foldlM decodeMapChunk []

/-- Body of the decode loop of `get_wal_from_file` for one 25-byte chunk:
`op_type = chunk[0]`, `key = chunk[1..9]`; opcode `0` decodes an insert
(location from `chunk[9..17]` and `chunk[17..25]`), opcode `1` a remove,
and any other opcode pushes nothing. -/
def decodeWalChunk (wal : List WalOperation) (chunk : List Nat) :
    Option (List WalOperation) := do
  let op_type := chunk.getD 0 0
  let key ← u64FromSlice chunk 1
  if op_type = 0 then
    let block ← u64FromSlice chunk 9
    let pointer ← u64FromSlice chunk 17
    pure (wal ++ [WalOperation.Insert key ⟨block, pointer⟩])
  else if op_type = 1 then
    pure (wal ++ [WalOperation.Remove key])
  else
    pure wal

/-- `LookupTable::get_wal_from_file`: split the file content into exact
25-byte chunks (dropping any shorter tail) and decode each into at most one
operation. -/
def get_wal_from_file (buffer : List Nat) : Option (List WalOperation) :=
  (chunksExact WAL_BLOCK_SIZE buffer).foldlM decodeWalChunk []

/-- The 24-byte buffer written per entry by `write_map_to_file`:
a zeroed buffer whose ranges `[0..8)`, `[8..16)`, `[16..24)` are overwritten
with the little-endian key, block and pointer (the three writes tile the
whole buffer). -/
def encodeMapRecord (key : Nat) (loc : EntryLocation) : List Nat :=
  u64ToLE key ++ u64ToLE loc.block ++ u64ToLE loc.pointer

/-- `LookupTable::write_map_to_file`: truncate, then write one 24-byte
record per map entry in iteration order; returns the resulting file
content. -/
def write_map_to_file (map : Mapping) : List Nat :=
  map.foldl (fun buf p => buf ++ encodeMapRecord p.1 p.2) []

/-- The 25-byte buffer built by `write_wal_operation_to_file`: a zeroed
buffer with opcode at index 0, key at `[1..9)`; for `Insert` the location
fills `[9..25)`, for `Remove` those 16 bytes stay zero. -/
def write_wal_operation_record (operation : WalOperation) : List Nat :=
  match operation with
  | WalOperation.Insert key location =>
      0 :: (u64ToLE key ++ u64ToLE location.block ++ u64ToLE location.pointer)
  | WalOperation.Remove key =>
      1 :: (u64ToLE key ++ List.replicate 16 0)

/-- The `LookupTable` state: the in-memory map and wal mirror, plus the byte
contents of `map.db` (`map_file`) and `wal.db` (`wal_file`).  `wal_durable`
is the portion of `wal.db` known forced to durable storage by `sync_all`. -/
structure LookupTable where
  map_file : List Nat
  map : Mapping
  wal_file : List Nat
  wal_durable : List Nat
  wal : List WalOperation
deriving DecidableEq, Repr

/-- Outcome of the fallible write-and-sync in `write_wal_operation_to_file`:
the `write_all` fails, the `sync_all` fails, or both succeed. -/
inductive IOOutcome where
  | writeFail
  | syncFail
  | ok
deriving DecidableEq, Repr

/-- `LookupTable::write_wal_operation_to_file` on the wal file state
`(content, durable)`: `write_all` appends the 25-byte record, `sync_all`
makes the content durable; the `Bool` is success.  On `writeFail` nothing
is appended; on `syncFail` the bytes are appended but not durable. -/
def write_wal_operation_to_file (walFile walDurable : List Nat)
    (operation : WalOperation) (outcome : IOOutcome) :
    (List Nat × List Nat) × Bool :=
  match outcome with
  | IOOutcome.writeFail => ((walFile, walDurable), false)
  | IOOutcome.syncFail =>
      ((walFile ++ write_wal_operation_record operation, walDurable), false)
  | IOOutcome.ok =>
      let f := walFile ++ write_wal_operation_record operation
      ((f, f), true)

/-- `LookupTable::add` with an explicit I/O outcome: in source order,
(1) `self.map.insert(key, location)`, (2) `self.wal.push(op)`,
(3) `write_wal_operation_to_file` (append + sync).  Returns the resulting
state and whether `add` returned `Ok`. -/
def add_run (t : LookupTable) (key : Nat) (location : EntryLocation)
    (outcome : IOOutcome) : LookupTable × Bool :=
  let map := mapInsert t.map key location
  let wal_operation := WalOperation.Insert key location
  let wal := t.wal ++ [wal_operation]
  let w := write_wal_operation_to_file t.wal_file t.wal_durable wal_operation outcome
  ({ t with map := map, wal := wal, wal_file := w.1.1, wal_durable := w.1.2 }, w.2)

/-- `LookupTable::add`, success path. -/
def add (t : LookupTable) (key : Nat) (location : EntryLocation) : LookupTable :=
  (add_run t key location IOOutcome.ok).1

/-- `LookupTable::remove` with an explicit I/O outcome: in source order,
(1) `self.map.remove(&key)`, (2) `self.wal.push(op)`,
(3) `write_wal_operation_to_file`. -/
def remove_run (t : LookupTable) (key : Nat) (outcome : IOOutcome) :
    LookupTable × Bool :=
  let map := mapRemove t.map key
  let wal_operation := WalOperation.Remove key
  let wal := t.wal ++ [wal_operation]
  let w := write_wal_operation_to_file t.wal_file t.wal_durable wal_operation outcome
  ({ t with map := map, wal := wal, wal_file := w.1.1, wal_durable := w.1.2 }, w.2)

/-- `LookupTable::remove`, success path. -/
def remove (t : LookupTable) (key : Nat) : LookupTable :=
  (remove_run t key IOOutcome.ok).1

/-- `LookupTable::flush`: rewrite `map.db` from the in-memory map
(`write_map_to_file`), clear the in-memory wal, truncate `wal.db` to zero
length, and sync it. -/
def flush (t : LookupTable) : LookupTable :=
  { t with
    map_file := write_map_to_file t.map
    wal := []
    wal_file := []
    wal_durable := [] }

/-- `LookupTable::get`: pure in-memory lookup. -/
def get (t : LookupTable) (key : Nat) : Option EntryLocation :=
  mapGet t.map key

/-- `LookupTable::new_reset` after the files are opened, given the byte
contents of `map.db` and `wal.db`: decode the snapshot into `map`, decode
the log into `wal`, and return the table.  (The decoded `wal` is stored but
not applied to `map`: the source has no replay step.) -/
def new_reset (mapBytes walBytes : List Nat) : Option LookupTable := do
  let map ← get_map_from_file mapBytes
  let wal ← get_wal_from_file walBytes
  pure { map_file := mapBytes, map := map, wal_file := walBytes,
         wal_durable := walBytes, wal := wal }

/-! ## Well-formedness predicates -/

/-- A file content is a list of byte values. -/
def isBytes (l : List Nat) : Prop := ∀ b ∈ l, b < 256

/-- A location whose components fit in `u64`. -/
def wfLoc (loc : EntryLocation) : Prop :=
  loc.block < 2 ^ 64 ∧ loc.pointer < 2 ^ 64

/-- A map whose keys and locations fit in `u64`. -/
def wfMap (m : Mapping) : Prop := ∀ p ∈ m, p.1 < 2 ^ 64 ∧ wfLoc p.2

/-- A map with no duplicate keys, as a `HashMap` guarantees. -/
def uniqueKeys (m : Mapping) : Prop := (m.map Prod.fst).Nodup

/-- A WAL operation whose key and location fit in `u64`. -/
def wfOp : WalOperation → Prop
  | WalOperation.Insert key loc => key < 2 ^ 64 ∧ wfLoc loc
  | WalOperation.Remove key => key < 2 ^ 64

instance : DecidablePred isBytes := fun l =>
  inferInstanceAs (Decidable (∀ b ∈ l, b < 256))

instance : DecidablePred wfLoc := fun _ => inferInstanceAs (Decidable (_ ∧ _))

instance : DecidablePred wfMap := fun m =>
  inferInstanceAs (Decidable (∀ p ∈ m, _ ∧ _))

instance : DecidablePred uniqueKeys := fun m =>
  inferInstanceAs (Decidable (List.Nodup (m.map Prod.fst)))

instance : DecidablePred wfOp := fun op =>
  match op with
  | WalOperation.Insert _ _ => inferInstanceAs (Decidable (_ ∧ _))
  | WalOperation.Remove _ => inferInstanceAs (Decidable (_ < _))

/-! ## Little-endian codec lemmas -/

theorem length_toLEBytes (w n : Nat) : (toLEBytes w n).length = w := by
  induction w generalizing n with
  | zero => rfl
  | succ w ih => simp [toLEBytes, ih]

theorem toLEBytes_lt (w n : Nat) : ∀ b ∈ toLEBytes w n, b < 256 := by
  induction w generalizing n with
  | zero => intro b hb; simp [toLEBytes] at hb
  | succ w ih =>
    intro b hb
    simp only [toLEBytes, List.mem_cons] at hb
    rcases hb with hb | hb
    · subst hb; exact Nat.mod_lt _ (by norm_num)
    · exact ih _ b hb

theorem length_u64ToLE (n : Nat) : (u64ToLE n).length = 8 :=
  length_toLEBytes 8 n

theorem u64ToLE_lt (n : Nat) : ∀ b ∈ u64ToLE n, b < 256 :=
  toLEBytes_lt 8 n

theorem fromLEBytes_toLEBytes (w n : Nat) :
    fromLEBytes (toLEBytes w n) = n % 256 ^ w := by
  induction w generalizing n with
  | zero => simp [toLEBytes, fromLEBytes, Nat.mod_one]
  | succ w ih =>
    simp only [toLEBytes, fromLEBytes, ih]
    rw [pow_succ, mul_comm (256 ^ w) 256, Nat.mod_mul]

theorem fromLEBytes_u64ToLE (n : Nat) (h : n < 2 ^ 64) :
    fromLEBytes (u64ToLE n) = n := by
  have h256 : (256 : Nat) ^ 8 = 2 ^ 64 := by norm_num
  rw [u64ToLE, fromLEBytes_toLEBytes, h256, Nat.mod_eq_of_lt h]

theorem fromLEBytes_lt (l : List Nat) (h : ∀ b ∈ l, b < 256) :
    fromLEBytes l < 256 ^ l.length := by
  induction l with
  | nil => simp [fromLEBytes]
  | cons b rest ih =>
    have hb : b < 256 := h b (by simp)
    have hr : fromLEBytes rest < 256 ^ rest.length :=
      ih (fun x hx => h x (by simp [hx]))
    simp only [fromLEBytes, List.length_cons, pow_succ]
    have h2 : 256 * (fromLEBytes rest + 1) ≤ 256 * 256 ^ rest.length :=
      Nat.mul_le_mul_left 256 (by omega)
    omega

/-! ## `chunksExact` lemmas -/

theorem chunksExactAux_fuel (n : Nat) :
    ∀ (fuel : Nat) (l : List α), l.length ≤ fuel →
      chunksExactAux fuel n l = chunksExactAux l.length n l := by
  intro fuel
  induction fuel using Nat.strong_induction_on with
  | _ fuel ih =>
    intro l hl
    match fuel with
    | 0 =>
      have : l.length = 0 := Nat.le_zero.mp hl
      rw [this]
    | fuel' + 1 =>
      by_cases hc : 0 < n ∧ n ≤ l.length
      · obtain ⟨m, hm⟩ : ∃ m, l.length = m + 1 := ⟨l.length - 1, by omega⟩
        rw [chunksExactAux, if_pos hc, hm, chunksExactAux, if_pos (hm ▸ hc)]
        have hdlen : (l.drop n).length = l.length - n := List.length_drop n l
        have h1 : (l.drop n).length ≤ fuel' := by omega
        have h2 : (l.drop n).length ≤ m := by omega
        rw [ih fuel' (by omega) _ h1, ih m (by omega) _ h2]
      · have hL : chunksExactAux (fuel' + 1) n l = [] := by
          rw [chunksExactAux, if_neg hc]
        have hR : chunksExactAux l.length n l = [] := by
          cases hlen : l.length with
          | zero => rfl
          | succ m => rw [chunksExactAux, if_neg hc]
        rw [hL, hR]

theorem chunksExact_short {n : Nat} {l : List α} (h : l.length < n) :
    chunksExact n l = [] := by
  unfold chunksExact
  cases hlen : l.length with
  | zero => rfl
  | succ m => rw [chunksExactAux, if_neg (by omega)]

theorem chunksExact_nil (n : Nat) : chunksExact n ([] : List α) = [] := rfl

theorem chunksExact_cons {n : Nat} (hn : 0 < n) (c l : List α)
    (hc : c.length = n) : chunksExact n (c ++ l) = c :: chunksExact n l := by
  unfold chunksExact
  have hlen : (c ++ l).length = l.length + n := by
    simp [List.length_append, hc]; omega
  obtain ⟨m, hm⟩ : ∃ m, (c ++ l).length = m + 1 := ⟨(c ++ l).length - 1, by omega⟩
  rw [hm, chunksExactAux, if_pos (by omega)]
  have htake : (c ++ l).take n = c := by
    rw [← hc]; exact List.take_left c l
  have hdrop : (c ++ l).drop n = l := by
    rw [← hc]; exact List.drop_left c l
  rw [htake, hdrop, chunksExactAux_fuel n m l (by omega)]

theorem chunksExactAux_length {n : Nat} :
    ∀ (fuel : Nat) (l c : List α), c ∈ chunksExactAux fuel n l → c.length = n := by
  intro fuel
  induction fuel with
  | zero => intro l c h; simp [chunksExactAux] at h
  | succ fuel ih =>
    intro l c h
    rw [chunksExactAux] at h
    by_cases hc : 0 < n ∧ n ≤ l.length
    · rw [if_pos hc] at h
      rcases List.mem_cons.mp h with h | h
      · subst h; simp [List.length_take]; omega
      · exact ih (l.drop n) c h
    · rw [if_neg hc] at h; simp at h

theorem length_of_mem_chunksExact {n : Nat} {l c : List α}
    (h : c ∈ chunksExact n l) : c.length = n :=
  chunksExactAux_length l.length l c h

theorem chunksExactAux_mem {n : Nat} :
    ∀ (fuel : Nat) (l c : List α) (b : α),
      c ∈ chunksExactAux fuel n l → b ∈ c → b ∈ l := by
  intro fuel
  induction fuel with
  | zero => intro l c b h _; simp [chunksExactAux] at h
  | succ fuel ih =>
    intro l c b h hb
    rw [chunksExactAux] at h
    by_cases hc : 0 < n ∧ n ≤ l.length
    · rw [if_pos hc] at h
      rcases List.mem_cons.mp h with h | h
      · subst h; exact List.mem_of_mem_take hb
      · exact List.mem_of_mem_drop (ih (l.drop n) c b h hb)
    · rw [if_neg hc] at h; simp at h

theorem mem_of_mem_chunksExact {n : Nat} {l c : List α} {b : α}
    (hc : c ∈ chunksExact n l) (hb : b ∈ c) : b ∈ l :=
  chunksExactAux_mem l.length l c b hc hb

/-! ## Slice and record lemmas -/

theorem u64FromSlice_of_length (chunk : List Nat) (a : Nat)
    (h : a + 8 ≤ chunk.length) :
    u64FromSlice chunk a = some (fromLEBytes ((chunk.drop a).take 8)) := by
  unfold u64FromSlice
  have hlen : ((chunk.drop a).take 8).length = 8 := by
    simp [List.length_take, List.length_drop]; omega
  simp [hlen]

theorem take8_append {a b : List Nat} (h : a.length = 8) :
    (a ++ b).take 8 = a := by
  rw [← h]; exact List.take_left a b

theorem drop8_append {a b : List Nat} (h : a.length = 8) :
    (a ++ b).drop 8 = b := by
  rw [← h]; exact List.drop_left a b

theorem length_encodeMapRecord (k : Nat) (loc : EntryLocation) :
    (encodeMapRecord k loc).length = 24 := by
  simp [encodeMapRecord, List.length_append, length_u64ToLE]

theorem length_write_wal_operation_record (op : WalOperation) :
    (write_wal_operation_record op).length = 25 := by
  cases op with
  | Insert key loc =>
    simp [write_wal_operation_record, List.length_append, length_u64ToLE]
  | Remove key =>
    simp [write_wal_operation_record, List.length_append, length_u64ToLE]

theorem encodeMapRecord_isBytes (k : Nat) (loc : EntryLocation) :
    ∀ b ∈ encodeMapRecord k loc, b < 256 := by
  intro b hb
  simp only [encodeMapRecord, List.mem_append] at hb
  rcases hb with (hb | hb) | hb
  · exact u64ToLE_lt _ b hb
  · exact u64ToLE_lt _ b hb
  · exact u64ToLE_lt _ b hb

theorem take8_encodeMapRecord (k : Nat) (loc : EntryLocation) :
    (encodeMapRecord k loc).take 8 = u64ToLE k := by
  rw [encodeMapRecord, List.append_assoc]
  exact take8_append (length_u64ToLE k)

theorem drop8_take8_encodeMapRecord (k : Nat) (loc : EntryLocation) :
    ((encodeMapRecord k loc).drop 8).take 8 = u64ToLE loc.block := by
  rw [encodeMapRecord, List.append_assoc, drop8_append (length_u64ToLE k)]
  exact take8_append (length_u64ToLE loc.block)

theorem drop16_take8_encodeMapRecord (k : Nat) (loc : EntryLocation) :
    ((encodeMapRecord k loc).drop 16).take 8 = u64ToLE loc.pointer := by
  have h16 : (encodeMapRecord k loc).drop 16
      = u64ToLE loc.pointer := by
    rw [encodeMapRecord, List.append_assoc]
    have : (16 : Nat) = 8 + 8 := rfl
    rw [this, ← List.drop_drop, drop8_append (length_u64ToLE k),
      drop8_append (length_u64ToLE loc.block)]
  rw [h16]
  exact List.take_of_length_le (by rw [length_u64ToLE])

theorem decodeMapChunk_encode (m : Mapping) (k : Nat) (loc : EntryLocation)
    (hk : k < 2 ^ 64) (hloc : wfLoc loc) :
    decodeMapChunk m (encodeMapRecord k loc) = some (mapInsert m k loc) := by
  have hlen := length_encodeMapRecord k loc
  have h0 : u64FromSlice (encodeMapRecord k loc) 0 = some k := by
    rw [u64FromSlice_of_length _ _ (by omega), List.drop_zero,
      take8_encodeMapRecord, fromLEBytes_u64ToLE k hk]
  have h8 : u64FromSlice (encodeMapRecord k loc) 8 = some loc.block := by
    rw [u64FromSlice_of_length _ _ (by omega),
      drop8_take8_encodeMapRecord, fromLEBytes_u64ToLE _ hloc.1]
  have h16 : u64FromSlice (encodeMapRecord k loc) 16 = some loc.pointer := by
    rw [u64FromSlice_of_length _ _ (by omega),
      drop16_take8_encodeMapRecord, fromLEBytes_u64ToLE _ hloc.2]
  unfold decodeMapChunk
  simp only [h0, h8, h16, Option.bind_eq_bind, Option.some_bind, Option.pure_def]

theorem decodeMapChunk_isSome (m : Mapping) (chunk : List Nat)
    (h : chunk.length = MAP_BLOCK_SIZE) :
    ∃ m', decodeMapChunk m chunk = some m' := by
  rw [MAP_BLOCK_SIZE] at h
  have h0 := u64FromSlice_of_length chunk 0 (by omega)
  have h8 := u64FromSlice_of_length chunk 8 (by omega)
  have h16 := u64FromSlice_of_length chunk 16 (by omega)
  unfold decodeMapChunk
  simp only [h0, h8, h16, Option.bind_eq_bind, Option.some_bind, Option.pure_def]
  exact ⟨_, rfl⟩

theorem decodeWalChunk_isSome (wal : List WalOperation) (chunk : List Nat)
    (h : chunk.length = WAL_BLOCK_SIZE) :
    ∃ wal', decodeWalChunk wal chunk = some wal' := by
  rw [WAL_BLOCK_SIZE] at h
  have h1 := u64FromSlice_of_length chunk 1 (by omega)
  have h9 := u64FromSlice_of_length chunk 9 (by omega)
  have h17 := u64FromSlice_of_length chunk 17 (by omega)
  unfold decodeWalChunk
  by_cases h0 : chunk.getD 0 0 = 0
  · simp only [h1, h9, h17, h0, Option.bind_eq_bind, Option.some_bind,
      Option.pure_def, eq_self_iff_true, ite_true]
    exact ⟨_, rfl⟩
  · by_cases hone : chunk.getD 0 0 = 1
    · simp only [h1, hone, Option.bind_eq_bind, Option.some_bind, Option.pure_def]
      norm_num
    · simp only [h1, Option.bind_eq_bind, Option.some_bind, Option.pure_def,
        if_neg h0, if_neg hone]
      exact ⟨_, rfl⟩

/-! ## Option-monad fold lemmas -/

theorem foldlM_eq_foldl_of_some {α β : Type} {f : β → α → Option β}
    {g : β → α → β} :
    ∀ (L : List α), (∀ c ∈ L, ∀ acc, f acc c = some (g acc c)) →
      ∀ acc, L.foldlM f acc = some (L.foldl g acc) := by
  intro L
  induction L with
  | nil => intro _ acc; rfl
  | cons c L ih =>
    intro h acc
    have hc := h c (by simp) acc
    rw [List.foldlM_cons, hc]
    simp only [Option.bind_eq_bind, Option.some_bind, List.foldl_cons]
    exact ih (fun x hx a => h x (by simp [hx]) a) (g acc c)

theorem foldlM_isSome {α β : Type} {f : β → α → Option β} :
    ∀ (L : List α), (∀ c ∈ L, ∀ acc, ∃ r, f acc c = some r) →
      ∀ acc, ∃ r, L.foldlM f acc = some r := by
  intro L
  induction L with
  | nil => intro _ acc; exact ⟨acc, rfl⟩
  | cons c L ih =>
    intro h acc
    obtain ⟨r, hr⟩ := h c (by simp) acc
    obtain ⟨r', hr'⟩ := ih (fun x hx a => h x (by simp [hx]) a) r
    refine ⟨r', ?_⟩
    rw [List.foldlM_cons, hr]
    simp only [Option.bind_eq_bind, Option.some_bind]
    exact hr'

theorem foldlM_invariant {α β : Type} {f : β → α → Option β} {P : β → Prop} :
    ∀ (L : List α) (acc : β), P acc →
      (∀ a c r, c ∈ L → P a → f a c = some r → P r) →
      ∀ res, L.foldlM f acc = some res → P res := by
  intro L
  induction L with
  | nil =>
    intro acc hacc _ res hres
    rw [List.foldlM_nil] at hres
    exact (Option.some_inj.mp hres) ▸ hacc
  | cons c L ih =>
    intro acc hacc hstep res hres
    rw [List.foldlM_cons] at hres
    cases hfc : f acc c with
    | none =>
      rw [hfc] at hres
      simp only [Option.bind_eq_bind, Option.none_bind] at hres
      exact absurd hres (by simp)
    | some r =>
      rw [hfc] at hres
      simp only [Option.bind_eq_bind, Option.some_bind] at hres
      exact ih r (hstep acc c r (by simp) hacc hfc)
        (fun a x s hx ha hf => hstep a x s (by simp [hx]) ha hf) res hres

/-! ## Association-list map lemmas -/

theorem lookup_append (l1 l2 : Mapping) (k : Nat) :
    (l1 ++ l2).lookup k =
      match l1.lookup k with
      | some v => some v
      | none => l2.lookup k := by
  induction l1 with
  | nil => simp [List.lookup]
  | cons p rest ih =>
    obtain ⟨k', v⟩ := p
    by_cases h : k = k'
    · subst h; simp [List.lookup]
    · simp only [List.cons_append, List.lookup]
      rw [show (k == k') = false from beq_eq_false_iff_ne.mpr h]
      exact ih

theorem lookup_filter_ne (m : Mapping) (k : Nat) :
    (m.filter (fun p => p.1 != k)).lookup k = none := by
  induction m with
  | nil => rfl
  | cons p rest ih =>
    obtain ⟨k', v⟩ := p
    by_cases h : k' = k
    · subst h
      simpa [List.filter_cons] using ih
    · simp only [List.filter_cons]
      rw [show ((k', v).1 != k) = true from bne_iff_ne.mpr h, if_pos rfl]
      simp only [List.lookup]
      rw [show (k == k') = false from beq_eq_false_iff_ne.mpr (Ne.symm h)]
      exact ih

theorem lookup_filter_of_ne (m : Mapping) {k k' : Nat} (h : k' ≠ k) :
    (m.filter (fun p => p.1 != k)).lookup k' = m.lookup k' := by
  induction m with
  | nil => rfl
  | cons p rest ih =>
    obtain ⟨a, v⟩ := p
    by_cases ha : a = k
    · subst ha
      simp only [List.filter_cons]
      rw [show ((a, v).1 != a) = false by simp, if_neg (by simp)]
      simp only [List.lookup]
      rw [show (k' == a) = false from beq_eq_false_iff_ne.mpr h]
      exact ih
    · simp only [List.filter_cons]
      rw [show ((a, v).1 != k) = true from bne_iff_ne.mpr ha, if_pos rfl]
      simp only [List.lookup]
      cases hk : k' == a with
      | true => rfl
      | false => exact ih

theorem lookup_eq_none_of_forall (m : Mapping) (k : Nat)
    (h : ∀ p ∈ m, p.1 ≠ k) : m.lookup k = none := by
  induction m with
  | nil => rfl
  | cons p rest ih =>
    obtain ⟨a, v⟩ := p
    simp only [List.lookup]
    rw [show (k == a) = false from
      beq_eq_false_iff_ne.mpr (Ne.symm (h (a, v) (by simp)))]
    exact ih (fun q hq => h q (by simp [hq]))

theorem forall_of_lookup_eq_none (m : Mapping) (k : Nat)
    (h : m.lookup k = none) : ∀ p ∈ m, p.1 ≠ k := by
  induction m with
  | nil => intro p hp; simp at hp
  | cons q rest ih =>
    obtain ⟨a, v⟩ := q
    simp only [List.lookup] at h
    cases ha : k == a with
    | true => rw [ha] at h; simp at h
    | false =>
      rw [ha] at h
      intro p hp
      rcases List.mem_cons.mp hp with hp | hp
      · subst hp
        intro he
        have he' : a = k := he
        rw [he'] at ha
        simp at ha
      · exact ih h p hp

theorem mapGet_mapInsert_self (m : Mapping) (k : Nat) (v : EntryLocation) :
    mapGet (mapInsert m k v) k = some v := by
  unfold mapGet mapInsert
  rw [lookup_append, lookup_filter_ne]
  simp [List.lookup]

theorem mapGet_mapInsert_ne (m : Mapping) {k k' : Nat} (v : EntryLocation)
    (h : k' ≠ k) : mapGet (mapInsert m k v) k' = mapGet m k' := by
  unfold mapGet mapInsert
  rw [lookup_append, lookup_filter_of_ne m h]
  cases hm : m.lookup k' with
  | some w => rfl
  | none =>
    simp only [List.lookup]
    rw [show (k' == k) = false from beq_eq_false_iff_ne.mpr h]

theorem mapGet_mapRemove_self (m : Mapping) (k : Nat) :
    mapGet (mapRemove m k) k = none :=
  lookup_filter_ne m k

theorem mapGet_mapRemove_ne (m : Mapping) {k k' : Nat} (h : k' ≠ k) :
    mapGet (mapRemove m k) k' = mapGet m k' :=
  lookup_filter_of_ne m h

theorem mapRemove_of_absent (m : Mapping) (k : Nat)
    (h : mapGet m k = none) : mapRemove m k = m := by
  unfold mapRemove
  exact List.filter_eq_self.mpr
    (fun p hp => bne_iff_ne.mpr (forall_of_lookup_eq_none m k h p hp))

theorem uniqueKeys_mapInsert (m : Mapping) (k : Nat) (v : EntryLocation)
    (h : uniqueKeys m) : uniqueKeys (mapInsert m k v) := by
  unfold uniqueKeys mapInsert
  rw [List.map_append, List.nodup_append]
  refine ⟨?_, by simp, ?_⟩
  · exact h.sublist (List.Sublist.map Prod.fst (List.filter_sublist m))
  · intro x hx
    obtain ⟨p, hp, hpx⟩ := List.mem_map.mp hx
    have hpk : p.1 ≠ k := bne_iff_ne.mp (List.mem_filter.mp hp).2
    intro hxmem
    have hxk : x = k := by simpa using hxmem
    exact hpk (hpx.trans hxk)

theorem uniqueKeys_mapRemove (m : Mapping) (k : Nat)
    (h : uniqueKeys m) : uniqueKeys (mapRemove m k) :=
  h.sublist (List.Sublist.map Prod.fst (List.filter_sublist m))

theorem wfMap_mapInsert (m : Mapping) (k : Nat) (v : EntryLocation)
    (h : wfMap m) (hk : k < 2 ^ 64) (hv : wfLoc v) :
    wfMap (mapInsert m k v) := by
  intro p hp
  rcases List.mem_append.mp hp with hp | hp
  · exact h p (List.mem_of_mem_filter hp)
  · simp only [List.mem_singleton] at hp
    subst hp
    exact ⟨hk, hv⟩

theorem wfMap_mapRemove (m : Mapping) (k : Nat) (h : wfMap m) :
    wfMap (mapRemove m k) :=
  fun p hp => h p (List.mem_of_mem_filter hp)

theorem mapGet_foldl_mapInsert :
    ∀ (m : Mapping), uniqueKeys m → ∀ (acc : Mapping) (k : Nat),
      mapGet (m.foldl (fun a p => mapInsert a p.1 p.2) acc) k =
        match mapGet m k with
        | some v => some v
        | none => mapGet acc k := by
  intro m
  induction m with
  | nil => intro _ acc k; rfl
  | cons q rest ih =>
    obtain ⟨a, v⟩ := q
    intro hu acc k
    have hq : a ∉ rest.map Prod.fst := (List.nodup_cons.mp hu).1
    have hrest : uniqueKeys rest := (List.nodup_cons.mp hu).2
    rw [List.foldl_cons, ih hrest]
    by_cases hk : k = a
    · have hnone : mapGet rest k = none := by
        apply lookup_eq_none_of_forall
        intro p hp he
        have hmem : p.1 ∈ rest.map Prod.fst := List.mem_map_of_mem Prod.fst hp
        rw [he, hk] at hmem
        exact hq hmem
      have hself : mapGet ((a, v) :: rest) k = some v := by
        simp only [mapGet, List.lookup]
        rw [show (k == a) = true from beq_iff_eq.mpr hk]
      simp only [hnone, hself]
      rw [hk]
      exact mapGet_mapInsert_self acc a v
    · have hcons : mapGet ((a, v) :: rest) k = mapGet rest k := by
        simp only [mapGet, List.lookup]
        rw [show (k == a) = false from beq_eq_false_iff_ne.mpr hk]
      rw [hcons, mapGet_mapInsert_ne acc v hk]

/-! ## WAL record round-trip -/

theorem decodeWalChunk_encode (wal : List WalOperation) (op : WalOperation)
    (hop : wfOp op) :
    decodeWalChunk wal (write_wal_operation_record op) = some (wal ++ [op]) := by
  cases op with
  | Insert key loc =>
    obtain ⟨hk, hb, hp⟩ : key < 2 ^ 64 ∧ loc.block < 2 ^ 64 ∧ loc.pointer < 2 ^ 64 :=
      ⟨hop.1, hop.2.1, hop.2.2⟩
    set rest := u64ToLE key ++ u64ToLE loc.block ++ u64ToLE loc.pointer with hrest
    have hrlen : rest.length = 24 := by
      simp [hrest, List.length_append, length_u64ToLE]
    have hchunk : write_wal_operation_record (WalOperation.Insert key loc)
        = 0 :: rest := rfl
    have hlen : (write_wal_operation_record (WalOperation.Insert key loc)).length
        = 25 := length_write_wal_operation_record _
    have hd1 : ((0 :: rest).drop 1).take 8 = u64ToLE key := by
      rw [List.drop_succ_cons, List.drop_zero, hrest, List.append_assoc]
      exact take8_append (length_u64ToLE key)
    have hd9 : ((0 :: rest).drop 9).take 8 = u64ToLE loc.block := by
      rw [List.drop_succ_cons, show (8 : Nat) = 0 + 8 from rfl, ← List.drop_drop,
        List.drop_zero, hrest, List.append_assoc, drop8_append (length_u64ToLE key)]
      exact take8_append (length_u64ToLE loc.block)
    have hd17 : ((0 :: rest).drop 17).take 8 = u64ToLE loc.pointer := by
      rw [List.drop_succ_cons, show (16 : Nat) = 8 + 8 from rfl, ← List.drop_drop,
        hrest, List.append_assoc, drop8_append (length_u64ToLE key),
        drop8_append (length_u64ToLE loc.block)]
      exact List.take_of_length_le (by rw [length_u64ToLE])
    have h1 : u64FromSlice (0 :: rest) 1 = some key := by
      rw [u64FromSlice_of_length _ _ (by rw [← hchunk, hlen]; omega), hd1,
        fromLEBytes_u64ToLE key hk]
    have h9 : u64FromSlice (0 :: rest) 9 = some loc.block := by
      rw [u64FromSlice_of_length _ _ (by rw [← hchunk, hlen]; omega), hd9,
        fromLEBytes_u64ToLE _ hb]
    have h17 : u64FromSlice (0 :: rest) 17 = some loc.pointer := by
      rw [u64FromSlice_of_length _ _ (by rw [← hchunk, hlen]), hd17,
        fromLEBytes_u64ToLE _ hp]
    rw [hchunk]
    unfold decodeWalChunk
    simp only [List.getD_cons_zero, h1, h9, h17, Option.bind_eq_bind,
      Option.some_bind, Option.pure_def, eq_self_iff_true, ite_true]
  | Remove key =>
    have hk : key < 2 ^ 64 := hop
    set rest := u64ToLE key ++ List.replicate 16 0 with hrest
    have hchunk : write_wal_operation_record (WalOperation.Remove key)
        = 1 :: rest := rfl
    have hlen : (write_wal_operation_record (WalOperation.Remove key)).length
        = 25 := length_write_wal_operation_record _
    have hd1 : ((1 :: rest).drop 1).take 8 = u64ToLE key := by
      rw [List.drop_succ_cons, List.drop_zero, hrest]
      exact take8_append (length_u64ToLE key)
    have h1 : u64FromSlice (1 :: rest) 1 = some key := by
      rw [u64FromSlice_of_length _ _ (by rw [← hchunk, hlen]; omega), hd1,
        fromLEBytes_u64ToLE key hk]
    rw [hchunk]
    unfold decodeWalChunk
    simp only [List.getD_cons_zero, h1, Option.bind_eq_bind, Option.some_bind,
      Option.pure_def]
    norm_num

/-- The byte content of a log file holding exactly the given operations. -/
def walBytes (ops : List WalOperation) : List Nat :=
  (ops.map write_wal_operation_record).flatten

theorem get_wal_from_file_walBytes_tail (ops : List WalOperation)
    (hops : ∀ op ∈ ops, wfOp op) (tail : List Nat) (htail : tail.length < 25) :
    ∀ acc, (chunksExact WAL_BLOCK_SIZE (walBytes ops ++ tail)).foldlM
      decodeWalChunk acc = some (acc ++ ops) := by
  induction ops with
  | nil =>
    intro acc
    have : chunksExact WAL_BLOCK_SIZE tail = [] :=
      chunksExact_short (by rw [WAL_BLOCK_SIZE]; omega)
    simp [walBytes, this]
  | cons op ops ih =>
    intro acc
    have hw : walBytes (op :: ops) ++ tail
        = write_wal_operation_record op ++ (walBytes ops ++ tail) := by
      simp [walBytes, List.flatten_cons, List.append_assoc]
    rw [hw, chunksExact_cons (by rw [WAL_BLOCK_SIZE]; omega) _ _
      (by rw [length_write_wal_operation_record, WAL_BLOCK_SIZE]),
      List.foldlM_cons, decodeWalChunk_encode acc op (hops op (by simp))]
    simp only [Option.bind_eq_bind, Option.some_bind]
    rw [ih (fun o ho => hops o (by simp [ho])) (acc ++ [op]), List.append_assoc]
    rfl

theorem get_wal_from_file_encode (ops : List WalOperation)
    (hops : ∀ op ∈ ops, wfOp op) (tail : List Nat) (htail : tail.length < 25) :
    get_wal_from_file (walBytes ops ++ tail) = some ops := by
  unfold get_wal_from_file
  rw [get_wal_from_file_walBytes_tail ops hops tail htail [], List.nil_append]

/-! ## Snapshot file round-trip -/

theorem write_map_to_file_eq (m : Mapping) :
    write_map_to_file m = (m.map (fun p => encodeMapRecord p.1 p.2)).flatten := by
  suffices h : ∀ buf, m.foldl (fun b p => b ++ encodeMapRecord p.1 p.2) buf
      = buf ++ (m.map (fun p => encodeMapRecord p.1 p.2)).flatten by
    simpa using h []
  induction m with
  | nil => intro buf; simp
  | cons p rest ih =>
    intro buf
    rw [List.foldl_cons, ih, List.map_cons, List.flatten_cons, List.append_assoc]

theorem chunksExact_flatten {n : Nat} (hn : 0 < n) :
    ∀ L : List (List α), (∀ c ∈ L, c.length = n) →
      chunksExact n L.flatten = L := by
  intro L
  induction L with
  | nil => intro _; simp [chunksExact_nil]
  | cons c L ih =>
    intro h
    rw [List.flatten_cons, chunksExact_cons hn c L.flatten (h c (by simp)),
      ih (fun x hx => h x (by simp [hx]))]

theorem chunksExact_write_map (m : Mapping) :
    chunksExact MAP_BLOCK_SIZE (write_map_to_file m)
      = m.map (fun p => encodeMapRecord p.1 p.2) := by
  rw [write_map_to_file_eq]
  apply chunksExact_flatten (by rw [MAP_BLOCK_SIZE]; omega)
  intro c hc
  obtain ⟨p, _, hp⟩ := List.mem_map.mp hc
  rw [← hp, length_encodeMapRecord, MAP_BLOCK_SIZE]

theorem foldlM_decodeMap_encode :
    ∀ (m : Mapping), wfMap m → ∀ acc,
      (m.map (fun p => encodeMapRecord p.1 p.2)).foldlM decodeMapChunk acc
        = some (m.foldl (fun a p => mapInsert a p.1 p.2) acc) := by
  intro m
  induction m with
  | nil => intro _ acc; rfl
  | cons p rest ih =>
    intro hwf acc
    have hp := hwf p (by simp)
    rw [List.map_cons, List.foldlM_cons,
      decodeMapChunk_encode acc p.1 p.2 hp.1 hp.2]
    simp only [Option.bind_eq_bind, Option.some_bind, List.foldl_cons]
    exact ih (fun q hq => hwf q (by simp [hq])) (mapInsert acc p.1 p.2)

theorem get_map_from_file_write (m : Mapping) (hwf : wfMap m) :
    get_map_from_file (write_map_to_file m)
      = some (m.foldl (fun a p => mapInsert a p.1 p.2) []) := by
  unfold get_map_from_file
  rw [chunksExact_write_map]
  exact foldlM_decodeMap_encode m hwf []

/-! ## Decode totality and invariants -/

theorem get_map_from_file_total (buffer : List Nat) :
    ∃ m, get_map_from_file buffer = some m :=
  foldlM_isSome _
    (fun c hc acc => decodeMapChunk_isSome acc c (length_of_mem_chunksExact hc)) []

theorem get_wal_from_file_total (buffer : List Nat) :
    ∃ w, get_wal_from_file buffer = some w :=
  foldlM_isSome _
    (fun c hc acc => decodeWalChunk_isSome acc c (length_of_mem_chunksExact hc)) []

theorem u64FromSlice_inv {chunk : List Nat} {a key : Nat}
    (h : u64FromSlice chunk a = some key) (hb : ∀ b ∈ chunk, b < 256) :
    key < 2 ^ 64 := by
  simp only [u64FromSlice] at h
  split at h
  · rename_i hlen
    have hkey : key = fromLEBytes ((chunk.drop a).take 8) :=
      (Option.some_inj.mp h).symm
    have hless := fromLEBytes_lt ((chunk.drop a).take 8)
      (fun b hbm => hb b (List.mem_of_mem_drop (List.mem_of_mem_take hbm)))
    rw [hlen] at hless
    rw [hkey]
    calc fromLEBytes ((chunk.drop a).take 8) < 256 ^ 8 := hless
      _ = 2 ^ 64 := by norm_num
  · exact absurd h (by simp)

theorem decodeMapChunk_inv {m : Mapping} {chunk : List Nat} {r : Mapping}
    (h : decodeMapChunk m chunk = some r) :
    ∃ key block pointer, u64FromSlice chunk 0 = some key ∧
      u64FromSlice chunk 8 = some block ∧ u64FromSlice chunk 16 = some pointer ∧
      r = mapInsert m key ⟨block, pointer⟩ := by
  unfold decodeMapChunk at h
  cases h0 : u64FromSlice chunk 0 with
  | none =>
    rw [h0] at h
    simp only [Option.bind_eq_bind, Option.none_bind] at h
    exact absurd h (by simp)
  | some key =>
    rw [h0] at h
    simp only [Option.bind_eq_bind, Option.some_bind] at h
    cases h8 : u64FromSlice chunk 8 with
    | none =>
      rw [h8] at h
      simp only [Option.none_bind] at h
      exact absurd h (by simp)
    | some block =>
      rw [h8] at h
      simp only [Option.some_bind] at h
      cases h16 : u64FromSlice chunk 16 with
      | none =>
        rw [h16] at h
        simp only [Option.none_bind] at h
        exact absurd h (by simp)
      | some pointer =>
        rw [h16] at h
        simp only [Option.some_bind, Option.pure_def] at h
        exact ⟨key, block, pointer, rfl, rfl, rfl, (Option.some_inj.mp h).symm⟩

theorem get_map_from_file_wf {buffer : List Nat} {m : Mapping}
    (h : get_map_from_file buffer = some m) (hb : isBytes buffer) :
    uniqueKeys m ∧ wfMap m := by
  unfold get_map_from_file at h
  refine foldlM_invariant (P := fun mm => uniqueKeys mm ∧ wfMap mm)
    (chunksExact MAP_BLOCK_SIZE buffer) []
    ⟨List.nodup_nil, fun p hp => absurd hp (List.not_mem_nil p)⟩ ?_ m h
  intro acc chunk r hchunk hacc hdec
  obtain ⟨key, block, pointer, h0, h8, h16, hr⟩ := decodeMapChunk_inv hdec
  have hbc : ∀ b ∈ chunk, b < 256 :=
    fun b hbm => hb b (mem_of_mem_chunksExact hchunk hbm)
  subst hr
  exact ⟨uniqueKeys_mapInsert _ _ _ hacc.1,
    wfMap_mapInsert _ _ _ hacc.2 (u64FromSlice_inv h0 hbc)
      ⟨u64FromSlice_inv h8 hbc, u64FromSlice_inv h16 hbc⟩⟩

/-! ## `new_reset` helpers -/

theorem new_reset_eq_of {mapBytes walBytes : List Nat} {m : Mapping}
    {w : List WalOperation} (hm : get_map_from_file mapBytes = some m)
    (hw : get_wal_from_file walBytes = some w) :
    new_reset mapBytes walBytes = some
      { map_file := mapBytes, map := m, wal_file := walBytes,
        wal_durable := walBytes, wal := w } := by
  unfold new_reset
  rw [hm, hw]
  simp only [Option.bind_eq_bind, Option.some_bind, Option.pure_def]

theorem new_reset_inv {mapBytes walBytes : List Nat} {t : LookupTable}
    (h : new_reset mapBytes walBytes = some t) :
    get_map_from_file mapBytes = some t.map ∧
    get_wal_from_file walBytes = some t.wal ∧
    t.map_file = mapBytes ∧ t.wal_file = walBytes ∧ t.wal_durable = walBytes := by
  obtain ⟨m, hm⟩ := get_map_from_file_total mapBytes
  obtain ⟨w, hw⟩ := get_wal_from_file_total walBytes
  rw [new_reset_eq_of hm hw] at h
  have ht := Option.some_inj.mp h
  rw [← ht]
  exact ⟨hm, hw, rfl, rfl, rfl⟩

theorem new_reset_total (mapBytes walBytes : List Nat) :
    ∃ t, new_reset mapBytes walBytes = some t := by
  obtain ⟨m, hm⟩ := get_map_from_file_total mapBytes
  obtain ⟨w, hw⟩ := get_wal_from_file_total walBytes
  exact ⟨_, new_reset_eq_of hm hw⟩

/-! ## Mutation sequences -/

/-- A successful mutation call on the table. -/
inductive Action where
  | Add (key : Nat) (location : EntryLocation)
  | Remove (key : Nat)
deriving DecidableEq, Repr

/-- Run one successful `add`/`remove` call. -/
def applyAction (t : LookupTable) : Action → LookupTable
  | Action.Add key loc => add t key loc
  | Action.Remove key => remove t key

/-- Run a sequence of successful `add`/`remove` calls in order. -/
def applyActions (t : LookupTable) (acts : List Action) : LookupTable :=
  acts.foldl applyAction t

/-- The keys touched by a sequence of calls. -/
def touchedKeys (acts : List Action) : List Nat :=
  acts.map (fun a => match a with
    | Action.Add k _ => k
    | Action.Remove k => k)

/-- A call whose key and location fit in `u64`, as the Rust types enforce. -/
def wfAction : Action → Prop
  | Action.Add k loc => k < 2 ^ 64 ∧ wfLoc loc
  | Action.Remove k => k < 2 ^ 64

instance : DecidablePred wfAction := fun a =>
  match a with
  | Action.Add _ _ => inferInstanceAs (Decidable (_ ∧ _))
  | Action.Remove _ => inferInstanceAs (Decidable (_ < _))

theorem add_map (t : LookupTable) (k : Nat) (loc : EntryLocation) :
    (add t k loc).map = mapInsert t.map k loc := rfl

theorem remove_map (t : LookupTable) (k : Nat) :
    (remove t k).map = mapRemove t.map k := rfl

theorem add_map_file (t : LookupTable) (k : Nat) (loc : EntryLocation) :
    (add t k loc).map_file = t.map_file := rfl

theorem remove_map_file (t : LookupTable) (k : Nat) :
    (remove t k).map_file = t.map_file := rfl

theorem applyActions_wf (acts : List Action) :
    ∀ t : LookupTable, uniqueKeys t.map → wfMap t.map →
      (∀ a ∈ acts, wfAction a) →
      uniqueKeys (applyActions t acts).map ∧ wfMap (applyActions t acts).map := by
  induction acts with
  | nil => intro t hu hw _; exact ⟨hu, hw⟩
  | cons a acts ih =>
    intro t hu hw hacts
    have hrest : ∀ x ∈ acts, wfAction x := fun x hx => hacts x (by simp [hx])
    cases a with
    | Add k loc =>
      have ha := hacts (Action.Add k loc) (by simp)
      exact ih (add t k loc)
        (by rw [add_map]; exact uniqueKeys_mapInsert _ _ _ hu)
        (by rw [add_map]; exact wfMap_mapInsert _ _ _ hw ha.1 ha.2) hrest
    | Remove k =>
      exact ih (remove t k)
        (by rw [remove_map]; exact uniqueKeys_mapRemove _ _ hu)
        (by rw [remove_map]; exact wfMap_mapRemove _ _ hw) hrest

theorem applyActions_map_file (acts : List Action) :
    ∀ t : LookupTable, (applyActions t acts).map_file = t.map_file := by
  induction acts with
  | nil => intro t; rfl
  | cons a acts ih =>
    intro t
    cases a with
    | Add k loc => exact (ih (add t k loc)).trans (add_map_file t k loc)
    | Remove k => exact (ih (remove t k)).trans (remove_map_file t k)

theorem walBytes_singleton (op : WalOperation) :
    walBytes [op] = write_wal_operation_record op := by
  simp [walBytes]

theorem decodeWalChunk_unknown (wal : List WalOperation) (bad : List Nat)
    (hlen : bad.length = WAL_BLOCK_SIZE) (h0 : bad.getD 0 0 ≠ 0)
    (h1 : bad.getD 0 0 ≠ 1) : decodeWalChunk wal bad = some wal := by
  rw [WAL_BLOCK_SIZE] at hlen
  have hk := u64FromSlice_of_length bad 1 (by omega)
  unfold decodeWalChunk
  simp only [hk, Option.bind_eq_bind, Option.some_bind, Option.pure_def,
    if_neg h0, if_neg h1]

theorem foldlM_chunks_walBytes (ops : List WalOperation)
    (hops : ∀ op ∈ ops, wfOp op) (X : List Nat) :
    ∀ acc, (chunksExact WAL_BLOCK_SIZE (walBytes ops ++ X)).foldlM
        decodeWalChunk acc
      = (chunksExact WAL_BLOCK_SIZE X).foldlM decodeWalChunk (acc ++ ops) := by
  induction ops with
  | nil => intro acc; simp [walBytes]
  | cons op ops ih =>
    intro acc
    have hw : walBytes (op :: ops) ++ X
        = write_wal_operation_record op ++ (walBytes ops ++ X) := by
      simp [walBytes, List.flatten_cons, List.append_assoc]
    rw [hw, chunksExact_cons (by rw [WAL_BLOCK_SIZE]; omega) _ _
      (by rw [length_write_wal_operation_record, WAL_BLOCK_SIZE]),
      List.foldlM_cons, decodeWalChunk_encode acc op (hops op (by simp))]
    simp only [Option.bind_eq_bind, Option.some_bind]
    rw [ih (fun o ho => hops o (by simp [ho])) (acc ++ [op]), List.append_assoc]
    rfl

/-! ## Claim theorems -/

/-- Claim C1, counter-evidence: the claim states that a successful open
applies the decoded log operations onto the snapshot map, so that opening
over an empty snapshot with a log of Insert(1, L1), Insert(2, L2) yields
get(1) = L1 and get(2) = L2.  The source of `new_reset` decodes the log
into the in-memory `wal` vector but never applies it to `map`: on exactly
that input, open succeeds with the operations decoded in order, yet
get(1) = None and get(2) = None. -/
theorem open_does_not_replay_log :
    (new_reset [] (walBytes [WalOperation.Insert 1 ⟨7, 9⟩,
        WalOperation.Insert 2 ⟨3, 4⟩])).map
        (fun t => (get t 1, get t 2, t.wal))
      = some (none, none,
          [WalOperation.Insert 1 ⟨7, 9⟩, WalOperation.Insert 2 ⟨3, 4⟩]) := by
  decide

/-- Claim C2: for any sequence of successful add/remove calls on a freshly
opened table, flushing and reopening from the same files yields a table
whose get results agree with the pre-flush table on every touched key. -/
theorem flush_reopen_round_trip (mapBytes walBytes0 : List Nat)
    (hb : isBytes mapBytes) (t0 : LookupTable)
    (hopen : new_reset mapBytes walBytes0 = some t0)
    (acts : List Action) (hacts : ∀ a ∈ acts, wfAction a) :
    ∃ t3, new_reset (flush (applyActions t0 acts)).map_file
        (flush (applyActions t0 acts)).wal_file = some t3 ∧
      ∀ k ∈ touchedKeys acts, get t3 k = get (applyActions t0 acts) k := by
  obtain ⟨hm, -, -, -, -⟩ := new_reset_inv hopen
  obtain ⟨hu0, hw0⟩ := get_map_from_file_wf hm hb
  obtain ⟨hu1, hw1⟩ := applyActions_wf acts t0 hu0 hw0 hacts
  have hdec : get_map_from_file (write_map_to_file (applyActions t0 acts).map)
      = some ((applyActions t0 acts).map.foldl
          (fun a p => mapInsert a p.1 p.2) []) :=
    get_map_from_file_write (applyActions t0 acts).map hw1
  have hwal : get_wal_from_file [] = some [] := rfl
  refine ⟨_, new_reset_eq_of hdec hwal, ?_⟩
  intro k _
  show mapGet ((applyActions t0 acts).map.foldl
      (fun a p => mapInsert a p.1 p.2) []) k
    = mapGet (applyActions t0 acts).map k
  rw [mapGet_foldl_mapInsert (applyActions t0 acts).map hu1 [] k]
  cases mapGet (applyActions t0 acts).map k with
  | some v => rfl
  | none => rfl

/-- Witness for C2 at a concrete run: empty initial files, one add and one
remove, flush, reopen. -/
theorem flush_reopen_round_trip_witness :
    ∃ t3, new_reset
        (flush (applyActions ⟨[], [], [], [], []⟩
          [Action.Add 1 ⟨2, 3⟩, Action.Remove 7])).map_file
        (flush (applyActions ⟨[], [], [], [], []⟩
          [Action.Add 1 ⟨2, 3⟩, Action.Remove 7])).wal_file = some t3 ∧
      ∀ k ∈ touchedKeys [Action.Add 1 ⟨2, 3⟩, Action.Remove 7],
        get t3 k = get (applyActions ⟨[], [], [], [], []⟩
          [Action.Add 1 ⟨2, 3⟩, Action.Remove 7]) k :=
  flush_reopen_round_trip [] [] (by decide) ⟨[], [], [], [], []⟩ (by decide)
    [Action.Add 1 ⟨2, 3⟩, Action.Remove 7] (by decide)

/-- Claim C3: after a flush the snapshot file holds exactly one 24-byte
record per key of the in-memory map and nothing else, the log file has zero
length, the map is unchanged, and a second flush with no intervening
mutation changes no get result and again leaves the log empty. -/
theorem flush_postconditions (t : LookupTable) :
    chunksExact MAP_BLOCK_SIZE (flush t).map_file
        = t.map.map (fun p => encodeMapRecord p.1 p.2) ∧
    (flush t).map_file.length = MAP_BLOCK_SIZE * t.map.length ∧
    (flush t).wal_file.length = 0 ∧
    (flush t).map = t.map ∧
    (∀ k, get (flush (flush t)) k = get t k) ∧
    (flush (flush t)).wal_file.length = 0 := by
  refine ⟨chunksExact_write_map t.map, ?_, rfl, rfl, fun k => rfl, rfl⟩
  show (write_map_to_file t.map).length = MAP_BLOCK_SIZE * t.map.length
  rw [write_map_to_file_eq, MAP_BLOCK_SIZE]
  induction t.map with
  | nil => rfl
  | cons p rest ih =>
    simp only [List.map_cons, List.flatten_cons, List.length_append,
      length_encodeMapRecord, List.length_cons, ih]
    omega

/-- Claim C4: both decoders split the file into exact-size chunks and drop
any shorter tail, the fixed-slice conversions never fail, and a log ending
in a torn partial record still opens, yielding exactly the complete leading
records. -/
theorem decode_total_torn_log (buffer : List Nat) (ops : List WalOperation)
    (hops : ∀ op ∈ ops, wfOp op) (tail : List Nat)
    (htail : tail.length < WAL_BLOCK_SIZE) :
    (∃ m, get_map_from_file buffer = some m) ∧
    (∃ w, get_wal_from_file buffer = some w) ∧
    get_wal_from_file (walBytes ops ++ tail) = some ops ∧
    (∃ t, new_reset buffer (walBytes ops ++ tail) = some t ∧ t.wal = ops) := by
  have htail' : tail.length < 25 := htail
  have hwal := get_wal_from_file_encode ops hops tail htail'
  obtain ⟨m, hm⟩ := get_map_from_file_total buffer
  exact ⟨get_map_from_file_total buffer, get_wal_from_file_total buffer, hwal,
    ⟨_, new_reset_eq_of hm hwal, rfl⟩⟩

/-- Witness for C4: arbitrary snapshot bytes, one record, a 1-byte torn
tail. -/
theorem decode_total_torn_log_witness :
    (∃ m, get_map_from_file [1, 2, 3] = some m) ∧
    (∃ w, get_wal_from_file [1, 2, 3] = some w) ∧
    get_wal_from_file (walBytes [WalOperation.Insert 5 ⟨6, 7⟩] ++ [9])
        = some [WalOperation.Insert 5 ⟨6, 7⟩] ∧
    (∃ t, new_reset [1, 2, 3] (walBytes [WalOperation.Insert 5 ⟨6, 7⟩] ++ [9])
        = some t ∧ t.wal = [WalOperation.Insert 5 ⟨6, 7⟩]) :=
  decode_total_torn_log [1, 2, 3] [WalOperation.Insert 5 ⟨6, 7⟩] (by decide)
    [9] (by decide)

/-- Claim C5: encoding a WalOperation yields one 25-byte record with the
stated little-endian layout (opcode 0 + key + location for Insert, opcode 1
+ key + 16 zero bytes for Remove), and decoding that record returns exactly
the original operation. -/
theorem wal_record_layout_roundtrip (op : WalOperation) (hop : wfOp op) :
    (write_wal_operation_record op).length = 25 ∧
    (∀ key loc, op = WalOperation.Insert key loc →
      write_wal_operation_record op
        = 0 :: (u64ToLE key ++ u64ToLE loc.block ++ u64ToLE loc.pointer)) ∧
    (∀ key, op = WalOperation.Remove key →
      write_wal_operation_record op
        = 1 :: (u64ToLE key ++ List.replicate 16 0)) ∧
    get_wal_from_file (write_wal_operation_record op) = some [op] := by
  refine ⟨length_write_wal_operation_record op, ?_, ?_, ?_⟩
  · intro key loc he; subst he; rfl
  · intro key he; subst he; rfl
  · have h := get_wal_from_file_encode [op]
      (fun o ho => by rw [List.mem_singleton.mp ho]; exact hop) [] (by simp)
    rw [List.append_nil, walBytes_singleton] at h
    exact h

/-- Witness for C5 at a concrete insert operation. -/
theorem wal_record_layout_roundtrip_witness :
    (write_wal_operation_record (WalOperation.Insert 1 ⟨2, 3⟩)).length = 25 ∧
    get_wal_from_file (write_wal_operation_record (WalOperation.Insert 1 ⟨2, 3⟩))
        = some [WalOperation.Insert 1 ⟨2, 3⟩] :=
  ⟨(wal_record_layout_roundtrip (WalOperation.Insert 1 ⟨2, 3⟩) (by decide)).1,
   (wal_record_layout_roundtrip (WalOperation.Insert 1 ⟨2, 3⟩) (by decide)).2.2.2⟩

/-- Claim C6: add(k, A) then add(k, B) leaves get(k) = B, and both the
in-memory wal vector and the log file hold the Insert(k, A) record followed
by the Insert(k, B) record, in that order. -/
theorem add_add_overwrite (t : LookupTable) (k : Nat) (A B : EntryLocation) :
    get (add (add t k A) k B) k = some B ∧
    (add (add t k A) k B).wal
        = t.wal ++ [WalOperation.Insert k A, WalOperation.Insert k B] ∧
    (add (add t k A) k B).wal_file
        = t.wal_file ++ write_wal_operation_record (WalOperation.Insert k A)
          ++ write_wal_operation_record (WalOperation.Insert k B) := by
  refine ⟨mapGet_mapInsert_self _ k B, ?_, rfl⟩
  show (t.wal ++ [WalOperation.Insert k A]) ++ [WalOperation.Insert k B]
    = t.wal ++ [WalOperation.Insert k A, WalOperation.Insert k B]
  rw [List.append_assoc]
  rfl

/-- Claim C7: remove(k) deletes k from the map when present, leaves the map
unchanged when absent, appends one encoded remove record to the wal and log
either way, and succeeds regardless; on an empty table it succeeds and the
map stays empty. -/
theorem remove_contract (t : LookupTable) (k : Nat) :
    get (remove t k) k = none ∧
    (∀ k', k' ≠ k → get (remove t k) k' = get t k') ∧
    (get t k = none → (remove t k).map = t.map) ∧
    (remove t k).wal = t.wal ++ [WalOperation.Remove k] ∧
    (remove t k).wal_file
        = t.wal_file ++ write_wal_operation_record (WalOperation.Remove k) ∧
    (remove_run t k IOOutcome.ok).2 = true :=
  ⟨mapGet_mapRemove_self t.map k,
   fun _ h => mapGet_mapRemove_ne t.map h,
   fun h => mapRemove_of_absent t.map k h,
   rfl, rfl, rfl⟩

/-- Witness for C7: remove(99) on an empty table succeeds, leaves the map
empty and other keys unaffected. -/
theorem remove_contract_witness :
    get (remove ⟨[], [], [], [], []⟩ 99) 99 = none ∧
    get (remove ⟨[], [], [], [], []⟩ 99) 5 = none ∧
    (remove ⟨[], [], [], [], []⟩ 99).map = [] :=
  ⟨(remove_contract ⟨[], [], [], [], []⟩ 99).1,
   ((remove_contract ⟨[], [], [], [], []⟩ 99).2.1 5 (by decide)).trans rfl,
   (remove_contract ⟨[], [], [], [], []⟩ 99).2.2.1 rfl⟩

/-- Claim C8: add upserts the in-memory map before the log write, so for
every I/O outcome the map holds the new binding and the wal vector is
pushed; success happens exactly when both write and sync succeed, in which
case the appended bytes are durable before returning; on a write failure
nothing is appended, on a sync failure the bytes are appended but not
durable, and in both failure cases the error is returned with the map left
mutated. -/
theorem add_effect_order_no_rollback (t : LookupTable) (k : Nat)
    (loc : EntryLocation) (outcome : IOOutcome) :
    (add_run t k loc outcome).1.map = mapInsert t.map k loc ∧
    get (add_run t k loc outcome).1 k = some loc ∧
    (add_run t k loc outcome).1.wal = t.wal ++ [WalOperation.Insert k loc] ∧
    ((add_run t k loc outcome).2 = true ↔ outcome = IOOutcome.ok) ∧
    (outcome = IOOutcome.ok →
      (add_run t k loc outcome).1.wal_file
          = t.wal_file ++ write_wal_operation_record (WalOperation.Insert k loc) ∧
      (add_run t k loc outcome).1.wal_durable
          = (add_run t k loc outcome).1.wal_file) ∧
    (outcome = IOOutcome.writeFail →
      (add_run t k loc outcome).1.wal_file = t.wal_file ∧
      (add_run t k loc outcome).1.wal_durable = t.wal_durable) ∧
    (outcome = IOOutcome.syncFail →
      (add_run t k loc outcome).1.wal_file
          = t.wal_file ++ write_wal_operation_record (WalOperation.Insert k loc) ∧
      (add_run t k loc outcome).1.wal_durable = t.wal_durable) := by
  cases outcome with
  | writeFail =>
    exact ⟨rfl, mapGet_mapInsert_self t.map k loc, rfl,
      ⟨fun h => Bool.noConfusion h, fun h => IOOutcome.noConfusion h⟩,
      fun h => IOOutcome.noConfusion h, fun _ => ⟨rfl, rfl⟩,
      fun h => IOOutcome.noConfusion h⟩
  | syncFail =>
    exact ⟨rfl, mapGet_mapInsert_self t.map k loc, rfl,
      ⟨fun h => Bool.noConfusion h, fun h => IOOutcome.noConfusion h⟩,
      fun h => IOOutcome.noConfusion h, fun h => IOOutcome.noConfusion h,
      fun _ => ⟨rfl, rfl⟩⟩
  | ok =>
    exact ⟨rfl, mapGet_mapInsert_self t.map k loc, rfl,
      ⟨fun _ => rfl, fun _ => rfl⟩,
      fun _ => ⟨rfl, rfl⟩, fun h => IOOutcome.noConfusion h,
      fun h => IOOutcome.noConfusion h⟩

/-- Witness for C8: a failed log write on an empty table still leaves the
new binding in the map, appends nothing to the log file, and reports
failure. -/
theorem add_effect_order_no_rollback_witness :
    (add_run ⟨[], [], [], [], []⟩ 1 ⟨2, 3⟩ IOOutcome.writeFail).1.map
        = mapInsert [] 1 ⟨2, 3⟩ ∧
    (add_run ⟨[], [], [], [], []⟩ 1 ⟨2, 3⟩ IOOutcome.writeFail).1.wal_file
        = [] ∧
    ((add_run ⟨[], [], [], [], []⟩ 1 ⟨2, 3⟩ IOOutcome.writeFail).2 = true
      ↔ IOOutcome.writeFail = IOOutcome.ok) :=
  ⟨(add_effect_order_no_rollback ⟨[], [], [], [], []⟩ 1 ⟨2, 3⟩
      IOOutcome.writeFail).1,
   ((add_effect_order_no_rollback ⟨[], [], [], [], []⟩ 1 ⟨2, 3⟩
      IOOutcome.writeFail).2.2.2.2.2.1 rfl).1,
   (add_effect_order_no_rollback ⟨[], [], [], [], []⟩ 1 ⟨2, 3⟩
      IOOutcome.writeFail).2.2.2.1⟩

/-- Claim C9: a complete 25-byte log record whose opcode byte is neither 0
nor 1 is silently skipped during decode: it contributes no operation and no
error, and open still succeeds with exactly the recognized operations. -/
theorem unknown_opcode_skipped (ops1 ops2 : List WalOperation)
    (h1 : ∀ op ∈ ops1, wfOp op) (h2 : ∀ op ∈ ops2, wfOp op)
    (bad : List Nat) (hlen : bad.length = WAL_BLOCK_SIZE)
    (hb0 : bad.getD 0 0 ≠ 0) (hb1 : bad.getD 0 0 ≠ 1) :
    get_wal_from_file (walBytes ops1 ++ (bad ++ walBytes ops2))
        = some (ops1 ++ ops2) ∧
    ∃ t, new_reset [] (walBytes ops1 ++ (bad ++ walBytes ops2)) = some t ∧
      t.wal = ops1 ++ ops2 := by
  have hwal : get_wal_from_file (walBytes ops1 ++ (bad ++ walBytes ops2))
      = some (ops1 ++ ops2) := by
    unfold get_wal_from_file
    rw [foldlM_chunks_walBytes ops1 h1 _ [],
      chunksExact_cons (by rw [WAL_BLOCK_SIZE]; omega) bad _ hlen,
      List.foldlM_cons,
      decodeWalChunk_unknown ([] ++ ops1) bad hlen hb0 hb1]
    simp only [Option.bind_eq_bind, Option.some_bind, List.nil_append]
    have h := get_wal_from_file_walBytes_tail ops2 h2 [] (by simp) ops1
    rw [List.append_nil] at h
    exact h
  exact ⟨hwal, ⟨_, new_reset_eq_of rfl hwal, rfl⟩⟩

/-- Witness for C9: one insert, then a record with opcode 7, then one
remove. -/
theorem unknown_opcode_skipped_witness :
    get_wal_from_file (walBytes [WalOperation.Insert 1 ⟨2, 3⟩]
        ++ ((7 :: List.replicate 24 0) ++ walBytes [WalOperation.Remove 4]))
      = some ([WalOperation.Insert 1 ⟨2, 3⟩] ++ [WalOperation.Remove 4]) ∧
    ∃ t, new_reset [] (walBytes [WalOperation.Insert 1 ⟨2, 3⟩]
        ++ ((7 :: List.replicate 24 0) ++ walBytes [WalOperation.Remove 4]))
      = some t ∧ t.wal = [WalOperation.Insert 1 ⟨2, 3⟩] ++ [WalOperation.Remove 4] :=
  unknown_opcode_skipped [WalOperation.Insert 1 ⟨2, 3⟩] [WalOperation.Remove 4]
    (by decide) (by decide) (7 :: List.replicate 24 0) (by decide) (by decide)
    (by decide)

/-- Claim C10: successful add and remove calls never touch the snapshot
file: a single add, a single remove, and any sequence of such calls leave
`map.db` exactly as it was at open. -/
theorem mutations_preserve_snapshot_file (t : LookupTable) (k : Nat)
    (loc : EntryLocation) (acts : List Action) :
    (add t k loc).map_file = t.map_file ∧
    (remove t k).map_file = t.map_file ∧
    (applyActions t acts).map_file = t.map_file :=
  ⟨rfl, rfl, applyActions_map_file acts t⟩

end CenDb
